import Mathlib

/-!
Shallow embedding of the balance-aggregation and mint-planning utility in
`src/main.rs` (crate `many-after8`).

Modelling conventions:
* Decimal token amounts (Rust `f64`) are modelled as exact rationals `ℚ`.
  Every finite `f64` is a rational; the `f64` multiplications in the source
  (`tokens * DENOMINATOR`, `max * DENOMINATOR`, division for display) are
  modelled as exact rational arithmetic, and `as i128` / `as u64` casts as
  truncation toward zero (with the saturating behaviour of Rust `as` for
  the unsigned cast).  Where the exactness of that layer would hide a
  program behaviour — the nan/inf forms of `str::parse::<f64>`, and the
  rounding of the audit write/read chain — a refined layer (`f64Round`,
  `parseF64`, `read_all_jsonsF`, `auditFileF`) models IEEE
  round-to-nearest-even and the full float grammar exactly.
* Directory scanning and JSON text parsing are outside the embedding: the
  aggregator receives the already-parsed files as lists of
  (identifier, value) pairs, each value being a JSON number, a JSON string,
  or anything else.  Rust `panic!` and `Err` returns are both modelled as
  the `Except.error` branch (both are fatal for the process).
* The pseudo-random generator `thread_rng` is modelled as an injected
  stream `draws : ℕ → ℚ` consumed one draw per ledger entry, mirroring
  the per-identifier `rand.gen_range(0.8..1.2)` call.
-/

deriving instance DecidableEq for Except

/- The Batteries rational-number operations are marked irreducible, which
blocks `decide` from evaluating the (computable) model on concrete inputs;
restore the default reducibility so that kernel computation works. -/
set_option allowUnsafeReducibility true
attribute [semireducible] Rat.mul Rat.add Rat.sub Rat.inv Rat.ofScientific

set_option maxRecDepth 8000

namespace After8

/-- JSON values as the aggregator inspects them (main.rs lines 73-79):
a numeric literal, a string, or any other JSON value (`x => panic!`). -/
inductive JsonValue where
  | num (q : ℚ)
  | str (s : String)
  | other
deriving DecidableEq

/-- One parsed JSON input file: its (identifier, value) pairs in the order
`serde_json` yields them (a `BTreeMap<String, Value>`). -/
abbrev JFile := List (String × JsonValue)

/-- The fixed-point scaling constant `DENOMINATOR` (main.rs line 9). -/
def DENOMINATOR : ℚ := 1000000000

/-- Numeric value of an ASCII digit character. -/
def digitVal (c : Char) : ℕ := c.toNat - 48

/-- Value of a list of ASCII digit characters read most-significant first. -/
def digitsVal (ds : List Char) : ℕ := ds.foldl (fun a c => a * 10 + digitVal c) 0

/-- Split a character list into its leading run of ASCII digits and the rest. -/
def takeDigits : List Char → List Char × List Char
  | [] => ([], [])
  | c :: rest =>
    if c.isDigit then
      let p := takeDigits rest
      (c :: p.1, p.2)
    else ([], c :: rest)

/-- Parse a non-empty all-digit character list as a natural number. -/
def parseNatDigits (cs : List Char) : Option ℕ :=
  if cs.isEmpty then none
  else if cs.all Char.isDigit then some (digitsVal cs) else none

/-- Parse an optionally signed digit string as an integer (decimal exponent). -/
def parseExpDigits (cs : List Char) : Option ℤ :=
  match cs with
  | '+' :: rest => (parseNatDigits rest).map (fun n => (n : ℤ))
  | '-' :: rest => (parseNatDigits rest).map (fun n => -(n : ℤ))
  | _ => (parseNatDigits cs).map (fun n => (n : ℤ))

/-- Parse the optional exponent suffix of a decimal literal; empty input
means exponent 0, otherwise the whole rest must be an exponent clause. -/
def parseExpPart (cs : List Char) : Option ℤ :=
  match cs with
  | [] => some 0
  | c :: rest => if c = 'e' ∨ c = 'E' then parseExpDigits rest else none

/-- Ten to an integer power, as a rational. -/
def qpow10 (e : ℤ) : ℚ :=
  if 0 ≤ e then (10 : ℚ) ^ e.toNat else 1 / (10 : ℚ) ^ (-e).toNat

/-- Parse an unsigned decimal literal `digits[.digits][(e|E)[+-]digits]`
(at least one digit before or after the point) as an exact rational.
This models the finite-number grammar of Rust `str::parse::<f64>`. -/
def parseUnsigned (cs : List Char) : Option ℚ :=
  let p := takeDigits cs
  match p.2 with
  | '.' :: rest2 =>
    let f := takeDigits rest2
    if p.1.isEmpty && f.1.isEmpty then none
    else
      (parseExpPart f.2).map (fun e =>
        ((digitsVal p.1 : ℚ) + (digitsVal f.1 : ℚ) / (10 : ℚ) ^ f.1.length) * qpow10 e)
  | _ =>
    if p.1.isEmpty then none
    else (parseExpPart p.2).map (fun e => (digitsVal p.1 : ℚ) * qpow10 e)

/-- Parse an optionally signed decimal literal; models `s.parse::<f64>().ok()`
restricted to finite decimal literals (main.rs line 75). -/
def parseDecimal (s : String) : Option ℚ :=
  match s.toList with
  | '+' :: rest => parseUnsigned rest
  | '-' :: rest => (parseUnsigned rest).map (fun q => -q)
  | _ => parseUnsigned s.toList

/-- Remove every comma from a string; models `s.replace(',', "")`. -/
def stripCommas (s : String) : String :=
  String.mk (s.toList.filter (fun c => c ≠ ','))

/-- Truncation toward zero of a rational, the semantics of Rust float-to-int
`as` casts (for in-range values). -/
def truncQ (q : ℚ) : ℤ := if 0 ≤ q then ⌊q⌋ else ⌈q⌉

/-- The decimal amount extracted from a JSON value (main.rs lines 73-79):
numbers are taken as-is (`n.as_f64()`), strings have commas stripped and are
parsed as decimals, anything else has no amount (and is fatal). -/
def tokensOf : JsonValue → Option ℚ
  | .num q => some q
  | .str s => parseDecimal (stripCommas s)
  | .other => none

/-- The fatal conditions of `read_all_jsons`: a value with no parseable
amount (lines 76-78 and 93-95), a raw amount above `DENOMINATOR`
(lines 83-85), and a final accumulated balance at or above `u64::MAX`
(lines 103-105).  All are `panic!` in the source. -/
inductive AggError where
  | invalidValue (id : String)
  | amountTooLarge (id : String)
  | balanceTooLarge (id : String)
deriving DecidableEq

/-- Add `v` to the entry of `id` in an association list, inserting the
entry at the end when absent; models `balance.entry(name).or_default()`
followed by `*curr = *curr + tokens` (main.rs lines 88-92). -/
def addTo : List (String × ℤ) → String → ℤ → List (String × ℤ)
  | [], id, v => [(id, v)]
  | (k, x) :: rest, id, v =>
    if k = id then (k, x + v) :: rest else (k, x) :: addTo rest id v

/-- Lookup in an association list with a default for absent keys. -/
def lookupD {α : Type} (d : α) : List (String × α) → String → α
  | [], _ => d
  | (k, v) :: rest, id => if k = id then v else lookupD d rest id

/-- Process one (identifier, value) pair of a file (main.rs lines 72-96):
extract the decimal amount, apply the `tokens > DENOMINATOR` sanity check,
scale by `DENOMINATOR`, truncate to an integer and fold it into the
accumulator. -/
def processEntry (acc : List (String × ℤ)) (id : String) (v : JsonValue) :
    Except AggError (List (String × ℤ)) :=
  match tokensOf v with
  | none => .error (.invalidValue id)
  | some q =>
    if q > DENOMINATOR then .error (.amountTooLarge id)
    else .ok (addTo acc id (truncQ (q * DENOMINATOR)))

/-- Process all entries of one file in order. -/
def processFile (acc : List (String × ℤ)) (file : JFile) :
    Except AggError (List (String × ℤ)) :=
  file.foldlM (fun a e => processEntry a e.1 e.2) acc

/-- Process a list of files in order starting from a given accumulator. -/
def accumFrom (acc : List (String × ℤ)) (files : List JFile) :
    Except AggError (List (String × ℤ)) :=
  files.foldlM processFile acc

/-- The accumulation loop of `read_all_jsons` (main.rs lines 64-98). -/
def accumulate (files : List JFile) : Except AggError (List (String × ℤ)) :=
  accumFrom [] files

/-- The integer value of `u64::MAX`. -/
def U64MAX : ℤ := 2 ^ 64 - 1

/-- The final pass of `read_all_jsons` (main.rs lines 100-113): fatal when an
accumulated balance is at or above `u64::MAX`, keep only strictly positive
balances, convert to `u64`. -/
def finalize : List (String × ℤ) → Except AggError (List (String × ℕ))
  | [] => .ok []
  | (k, v) :: rest =>
    if U64MAX ≤ v then .error (.balanceTooLarge k)
    else
      match finalize rest with
      | .error e => .error e
      | .ok r => .ok (if 0 < v then (k, v.toNat) :: r else r)

/-- The aggregator `read_all_jsons` (main.rs lines 62-114), on the parsed
contents of the JSON files of the directory. -/
def read_all_jsons (files : List JFile) : Except AggError (List (String × ℕ)) :=
  accumulate files >>= finalize

/-- The scaled, truncated contribution of one file entry to identifier `id`
(zero for entries of other identifiers). -/
def entryContrib (id : String) (e : String × JsonValue) : ℤ :=
  if e.1 = id then truncQ (((tokensOf e.2).getD 0) * DENOMINATOR) else 0

/-- Total contribution of one file to identifier `id`. -/
def fileContrib (id : String) (file : JFile) : ℤ :=
  (file.map (entryContrib id)).sum

/-- The specified aggregated balance of `id`: the sum over all files and all
occurrences of `id` of each occurrence's decimal amount scaled by 10^9 and
truncated to an integer. -/
def contribSum (files : List JFile) (id : String) : ℤ :=
  (files.map (fileContrib id)).sum

/-- An entry the aggregation loop accepts: its amount parses and does not
exceed `DENOMINATOR`. -/
def goodEntry (e : String × JsonValue) : Prop :=
  ∃ q, tokensOf e.2 = some q ∧ q ≤ DENOMINATOR

/-- Whether an `Except` value is the success branch. -/
def exceptIsOk {ε α : Type} : Except ε α → Bool
  | .ok _ => true
  | .error _ => false

/-- The balance an aggregation result reports for `id`: `none` when the
aggregation failed, otherwise the returned balance (0 when `id` is absent
from the returned map). -/
def balOf (r : Except AggError (List (String × ℕ))) (id : String) : Option ℕ :=
  match r with
  | .ok m => some (lookupD 0 m id)
  | .error _ => none

/-! ### The mint planner (main.rs lines 116-206) -/

/-- The mint subcommand's flags (main.rs lines 30-57).  `max` is the decimal
maximum amount (an `f64`, modelled as an exact rational), `pem` the path
echoed into the command line. -/
structure MintOpt where
  max : ℚ
  dry_run : Bool
  randomize : Bool
  memo : Option String
  json : Bool
  pem : String
deriving DecidableEq

/-- The maximal value of `u64`. -/
def U64MAXn : ℕ := 2 ^ 64 - 1

/-- Rust `as u64` on a (finite) float: truncate toward zero, saturating at
the bounds of `u64`. -/
def f64_as_u64 (q : ℚ) : ℕ := min (truncQ q).toNat U64MAXn

/-- The scaled per-run maximum, `(max * DENOMINATOR) as u64` (main.rs 137). -/
def mintMaxScaled (opts : MintOpt) : ℕ := f64_as_u64 (opts.max * DENOMINATOR)

/-- The effective cap for one ledger entry (main.rs lines 142-146): the
scaled maximum, multiplied by the entry's own random draw when
randomization is on, cast back to `u64`. -/
def effectiveCap (maxScaled : ℕ) (randomize : Bool) (draw : ℚ) : ℕ :=
  if randomize then f64_as_u64 ((maxScaled : ℕ) * draw) else maxScaled

/-- The per-entry clamping loop (main.rs lines 139-149), consuming one
random draw per entry; `i` indexes the draw stream. -/
def mintAmountsAux (draws : ℕ → ℚ) (maxScaled : ℕ) (randomize : Bool) :
    ℕ → List (String × ℕ) → List (String × ℕ)
  | _, [] => []
  | i, (id, b) :: rest =>
    (id, min b (effectiveCap maxScaled randomize (draws i))) ::
      mintAmountsAux draws maxScaled randomize (i + 1) rest

/-- The `to_mint` plan of one run (main.rs lines 139-149). -/
def mintToMint (balances : List (String × ℕ)) (opts : MintOpt) (draws : ℕ → ℚ) :
    List (String × ℕ) :=
  mintAmountsAux draws (mintMaxScaled opts) opts.randomize 0 balances

/-- The successive digits of a natural number, most significant first
(fuel-based so that it reduces by kernel computation). -/
def digitChar (d : ℕ) : Char :=
  match d with
  | 0 => '0' | 1 => '1' | 2 => '2' | 3 => '3' | 4 => '4'
  | 5 => '5' | 6 => '6' | 7 => '7' | 8 => '8' | _ => '9'

def natDigitsAux : ℕ → ℕ → List Char
  | 0, _ => []
  | fuel + 1, n =>
    if n < 10 then [digitChar n]
    else natDigitsAux fuel (n / 10) ++ [digitChar (n % 10)]

/-- Decimal digit characters of `n`, most significant first. -/
def natDigits (n : ℕ) : List Char := natDigitsAux (n + 1) n

/-- `n % 10^9` written with exactly nine digits (left-padded with zeros). -/
def pad9 (m : ℕ) : List Char :=
  List.replicate (9 - (natDigits m).length) '0' ++ natDigits m

/-- The characters of the decimal rendering of `s / 10^9` with exactly nine
fraction digits; models `format!("{:.09}", (s as f64) / DENOMINATOR)`
(main.rs lines 153 and 160). -/
def fmt9chars (s : ℕ) : List Char :=
  natDigits (s / 10 ^ 9) ++ '.' :: pad9 (s % 10 ^ 9)

def fmt9 (s : ℕ) : String := String.mk (fmt9chars s)

/-- A display-level stand-in for the decimal string the audit file records
for a minted amount `a`, `(-((amount as f64) / DENOMINATOR)).to_string()`
(main.rs line 180): a minus sign and nine fraction digits.  The real
program prints the shortest decimal for the rounded double; the value that
string denotes and its read-back semantics are modelled exactly by
`auditValue` and `auditFileF` below.  This string is used only for the
audit-file contents carried in `MintResult`, which the claims compare
against `none`. -/
def auditAmountString (a : ℕ) : String := String.mk ('-' :: fmt9chars a)

/-- One console item of a mint run, abstracting the printed text; two items
are equal exactly when the source would print equal text.  `flags` carries
the whole `MintOpt`, since `eprintln!("Flags: {opts:?}")` (main.rs line 126)
prints every field of the options, `dry_run` included. -/
inductive ConsoleLine where
  | header
  | date (now : String)
  | flags (opts : MintOpt)
  | blank
  | planLine (id : String) (formatted : String) (width : ℕ)
  | separator
  | outJson (plan : List (String × ℕ))
  | outCommand (pem : String) (plan : List (String × ℕ)) (memo : Option String)
deriving DecidableEq

/-- The width of the longest formatted amount (main.rs lines 151-155),
`.max().unwrap_or(0)` modelled as a fold of `max` over 0. -/
def longestWidth (to_mint : List (String × ℕ)) : ℕ :=
  (to_mint.map (fun p => (fmt9 p.2).length)).foldr max 0

/-- The per-entry stderr plan lines (main.rs lines 156-162). -/
def planItems (to_mint : List (String × ℕ)) (w : ℕ) : List ConsoleLine :=
  to_mint.map (fun p => ConsoleLine.planLine p.1 (fmt9 p.2) w)

/-- The stdout output (main.rs lines 187-203): the JSON object in `--json`
mode, otherwise the full `ledger ... token mint ...` command line unless the
plan is empty. -/
def stdoutItems (to_mint : List (String × ℕ)) (opts : MintOpt) : List ConsoleLine :=
  if opts.json then [ConsoleLine.outJson to_mint]
  else if to_mint.isEmpty then []
  else [ConsoleLine.outCommand opts.pem to_mint opts.memo]

/-- All console output of a mint run, stderr then stdout
(main.rs lines 124-127, 156-164, 187-203). -/
def mintConsole (now : String) (balances : List (String × ℕ)) (opts : MintOpt)
    (draws : ℕ → ℚ) : List ConsoleLine :=
  ConsoleLine.header :: ConsoleLine.date now :: ConsoleLine.flags opts ::
    ConsoleLine.blank ::
    (planItems (mintToMint balances opts draws)
        (longestWidth (mintToMint balances opts draws)) ++
      ConsoleLine.separator :: stdoutItems (mintToMint balances opts draws) opts)

/-- The audit file contents a mint run writes: `none` in dry-run mode
(main.rs line 166), otherwise each minted identifier with the negative
decimal amount string (main.rs lines 172-184). -/
def mintAudit (balances : List (String × ℕ)) (opts : MintOpt) (draws : ℕ → ℚ) :
    Option (List (String × String)) :=
  if opts.dry_run then none
  else some ((mintToMint balances opts draws).map
    (fun p => (p.1, auditAmountString p.2)))

/-- The observable outcome of one `mint` run (main.rs lines 116-206). -/
structure MintResult where
  plan : List (String × ℕ)
  console : List ConsoleLine
  audit : Option (List (String × String))
deriving DecidableEq

/-- The mint planner `mint` (main.rs lines 116-206): computes the plan,
prints the header/plan/command, and writes the audit file unless dry-run.
`now` is the formatted local timestamp, `draws` the random stream. -/
def mint (now : String) (balances : List (String × ℕ)) (opts : MintOpt)
    (draws : ℕ → ℚ) : MintResult :=
  ⟨mintToMint balances opts draws,
   mintConsole now balances opts draws,
   mintAudit balances opts draws⟩

/-- Whether a console item is the flags echo line. -/
def isFlagsLine : ConsoleLine → Bool
  | .flags _ => true
  | _ => false

/-- A mint run's console output with the flags echo line removed. -/
def consoleSansFlags (r : MintResult) : List ConsoleLine :=
  r.console.filter (fun c => !isFlagsLine c)

/-! ### The refined model: f64 rounding and the full float grammar

The exact-rational layer above is adequate for claims whose inputs are
exactly representable doubles, but two behaviours of the source need the
real `f64` semantics:
* `str::parse::<f64>` accepts `nan`, `inf` and `infinity` (optionally
  signed, case-insensitive) besides decimal literals, and rounds a decimal
  literal to the nearest double;
* the audit chain `(-((amount as f64) / DENOMINATOR)).to_string()` followed
  by re-parsing and `* DENOMINATOR` `as i128` rounds at each step and can
  lose a unit.
The definitions below model IEEE round-to-nearest-even with a 53-bit
mantissa exactly (overflow to infinity and subnormal underflow, which need
magnitudes beyond everything these claims touch, are not modelled, and
finite scaled products are not saturated at the `i128` bounds). -/

def nbitsAux : ℕ → ℕ → ℕ
  | 0, _ => 0
  | fuel + 1, n => if n = 0 then 0 else nbitsAux fuel (n / 2) + 1

/-- The number of binary digits of `n` (0 for 0). -/
def nbits (n : ℕ) : ℕ := nbitsAux (n + 1) n

/-- Two to an integer power, as a rational. -/
def qpow2 (e : ℤ) : ℚ := if 0 ≤ e then (2 : ℚ) ^ e.toNat else 1 / (2 : ℚ) ^ (-e).toNat

/-- The floor of the base-two logarithm of a positive rational. -/
def qlog2 (q : ℚ) : ℤ :=
  let k : ℤ := (nbits q.num.toNat : ℤ) - (nbits q.den : ℤ)
  if q < qpow2 k then k - 1 else if qpow2 (k + 1) ≤ q then k + 1 else k

/-- Round a rational to the nearest integer, ties to even. -/
def rnde (m0 : ℚ) : ℤ :=
  if 1 / 2 < m0 - ⌊m0⌋ then ⌊m0⌋ + 1
  else if m0 - ⌊m0⌋ < 1 / 2 then ⌊m0⌋
  else if ⌊m0⌋ % 2 = 0 then ⌊m0⌋ else ⌊m0⌋ + 1

/-- Round a positive rational to the nearest 53-bit binary floating-point
value (round to nearest, ties to even): scale into the mantissa range
[2^52, 2^53), round to an integer mantissa, scale back. -/
def f64RoundPos (q : ℚ) : ℚ :=
  (rnde (q * qpow2 (-(qlog2 q - 52))) : ℚ) * qpow2 (qlog2 q - 52)

/-- IEEE round-to-nearest of a rational to a double (normal range). -/
def f64Round (q : ℚ) : ℚ :=
  if q = 0 then 0 else if 0 < q then f64RoundPos q else -f64RoundPos (-q)

/-- A double as the aggregation loop sees it: a finite value (an exact
rational), or one of the special values `parse::<f64>` can produce. -/
inductive F64 where
  | fin (q : ℚ)
  | nan
  | inf
  | neginf
deriving DecidableEq

/-- Negation of a double (the sign of NaN is irrelevant downstream: both
the comparison with `DENOMINATOR` and the `as i128` cast ignore it). -/
def F64.neg : F64 → F64
  | .fin q => .fin (-q)
  | .nan => .nan
  | .inf => .neginf
  | .neginf => .inf

/-- The case-insensitive special forms `nan`, `inf`, `infinity` of Rust's
float grammar (after the optional sign). -/
def parseSpecialF64 (cs : List Char) : Option F64 :=
  let ls := cs.map Char.toLower
  if ls = ['n', 'a', 'n'] then some F64.nan
  else if ls = ['i', 'n', 'f'] ∨ ls = ['i', 'n', 'f', 'i', 'n', 'i', 't', 'y'] then
    some F64.inf
  else none

def parseF64core (cs : List Char) : Option F64 :=
  match parseUnsigned cs with
  | some q => some (F64.fin (f64Round q))
  | none => parseSpecialF64 cs

/-- The full `str::parse::<f64>` model: an optional sign, then a decimal
literal (rounded to the nearest double) or a special form. -/
def parseF64 (s : String) : Option F64 :=
  match s.toList with
  | '+' :: rest => parseF64core rest
  | '-' :: rest => (parseF64core rest).map F64.neg
  | _ => parseF64core s.toList

/-- The token of a JSON value under the refined model (main.rs lines 73-79):
a JSON number is already a double; strings are comma-stripped and parsed by
the full float grammar. -/
def tokensOfF : JsonValue → Option F64
  | .num q => some (.fin q)
  | .str s => parseF64 (stripCommas s)
  | .other => none

/-- The sanity-check comparison `tokens > DENOMINATOR` on a double
(main.rs line 83): false for NaN and negative infinity, true for positive
infinity. -/
def f64AboveDen : F64 → Bool
  | .fin q => decide (DENOMINATOR < q)
  | .inf => true
  | .neginf => false
  | .nan => false

def I128MIN : ℤ := -(2 ^ 127)

def I128MAXi : ℤ := 2 ^ 127 - 1

/-- `(tokens * DENOMINATOR) as i128` on a double (main.rs line 87): the
multiplication rounds to the nearest double, the cast truncates toward
zero; NaN casts to 0 and the infinities saturate at the `i128` bounds. -/
def scaleF : F64 → ℤ
  | .fin q => truncQ (f64Round (q * DENOMINATOR))
  | .nan => 0
  | .inf => I128MAXi
  | .neginf => I128MIN

/-- One (identifier, value) pair under the refined model
(main.rs lines 72-96). -/
def processEntryF (acc : List (String × ℤ)) (id : String) (v : JsonValue) :
    Except AggError (List (String × ℤ)) :=
  match tokensOfF v with
  | none => .error (.invalidValue id)
  | some t =>
    if f64AboveDen t = true then .error (.amountTooLarge id)
    else .ok (addTo acc id (scaleF t))

def processFileF (acc : List (String × ℤ)) (file : JFile) :
    Except AggError (List (String × ℤ)) :=
  file.foldlM (fun a e => processEntryF a e.1 e.2) acc

def accumFromF (acc : List (String × ℤ)) (files : List JFile) :
    Except AggError (List (String × ℤ)) :=
  files.foldlM processFileF acc

/-- The accumulation loop of `read_all_jsons` under the refined model. -/
def accumulateF (files : List JFile) : Except AggError (List (String × ℤ)) :=
  accumFromF [] files

/-- `read_all_jsons` under the refined model (same final pass). -/
def read_all_jsonsF (files : List JFile) : Except AggError (List (String × ℕ)) :=
  accumulateF files >>= finalize

/-- An entry the refined aggregation loop accepts. -/
def goodEntryF (e : String × JsonValue) : Prop :=
  ∃ t, tokensOfF e.2 = some t ∧ f64AboveDen t = false

def entryContribF (id : String) (e : String × JsonValue) : ℤ :=
  if e.1 = id then scaleF ((tokensOfF e.2).getD (.fin 0)) else 0

def fileContribF (id : String) (file : JFile) : ℤ :=
  (file.map (entryContribF id)).sum

/-- The double the audit file records for a minted amount `a`:
`-((a as f64) / DENOMINATOR)` with the cast and the division each rounding
to the nearest double (main.rs line 180). -/
def auditValue (a : ℕ) : ℚ := -(f64Round (f64Round (a : ℚ) / DENOMINATOR))

/-- The scaled value the aggregator obtains from the audit entry for a
minted amount `a`.  Rust's float `to_string` prints the shortest decimal
that parses back to the same double, so reading the audit file recovers
exactly the double `auditValue a`; scaling it is `scaleF`. -/
def auditReadBack (a : ℕ) : ℤ := scaleF (F64.fin (auditValue a))

/-- The magnitude of the scaled audit read-back (it is nonpositive). -/
def readBackN (a : ℕ) : ℕ := (-auditReadBack a).toNat

/-- The audit file as a future aggregator input under the refined model.
The file stores the string `(auditValue a).to_string()`; since float
printing round-trips, parsing that string yields exactly the double
`auditValue a`, so the entry is represented by that value. -/
def auditFileF (plan : List (String × ℕ)) : JFile :=
  plan.map (fun p => (p.1, JsonValue.num (auditValue p.2)))

/-! ### Basic lemmas about the accumulator -/

theorem except_bind_ok {ε α β : Type} (x : Except ε α) (g : α → Except ε β) (b : β)
    (h : x >>= g = .ok b) : ∃ a, x = .ok a ∧ g a = .ok b := by
  cases x with
  | ok a => exact ⟨a, rfl, h⟩
  | error e => simp only [Bind.bind, Except.bind] at h; cases h

theorem mem_keys_of_mem {α : Type} {l : List (String × α)} {k : String} {v : α}
    (h : (k, v) ∈ l) : k ∈ l.map Prod.fst :=
  List.mem_map.mpr ⟨(k, v), h, rfl⟩

theorem lookupD_mem {α : Type} (d : α) (l : List (String × α)) (k : String)
    (h : k ∈ l.map Prod.fst) : (k, lookupD d l k) ∈ l := by
  induction l with
  | nil => simp at h
  | cons p rest ih =>
    obtain ⟨a, v⟩ := p
    by_cases hak : a = k
    · subst hak; simp [lookupD]
    · simp only [List.map_cons, List.mem_cons] at h
      rcases h with h | h
      · exact absurd h.symm hak
      · simp only [lookupD, hak, if_false, List.mem_cons]
        exact Or.inr (ih h)

theorem lookupD_eq_of_mem {α : Type} (d : α) {l : List (String × α)} {k : String} {v : α}
    (hnd : (l.map Prod.fst).Nodup) (h : (k, v) ∈ l) : lookupD d l k = v := by
  induction l with
  | nil => simp at h
  | cons p rest ih =>
    obtain ⟨a, x⟩ := p
    simp only [List.map_cons, List.nodup_cons] at hnd
    simp only [List.mem_cons] at h
    rcases h with h | h
    · obtain ⟨rfl, rfl⟩ := Prod.mk.injEq .. ▸ h
      simp [lookupD]
    · have hka : a ≠ k := by
        rintro rfl
        exact hnd.1 (mem_keys_of_mem h)
      simp only [lookupD, hka, if_false]
      exact ih hnd.2 h

theorem lookupD_not_mem {α : Type} (d : α) {l : List (String × α)} {k : String}
    (h : k ∉ l.map Prod.fst) : lookupD d l k = d := by
  induction l with
  | nil => rfl
  | cons p rest ih =>
    obtain ⟨a, v⟩ := p
    simp only [List.map_cons, List.mem_cons, not_or] at h
    have hak : a ≠ k := fun hh => h.1 hh.symm
    simp only [lookupD, hak, if_false]
    exact ih h.2

theorem lookupD_addTo (acc : List (String × ℤ)) (id k : String) (v : ℤ) :
    lookupD 0 (addTo acc id v) k = lookupD 0 acc k + (if id = k then v else 0) := by
  induction acc with
  | nil => by_cases h : id = k <;> simp [addTo, lookupD, h]
  | cons p rest ih =>
    obtain ⟨a, x⟩ := p
    by_cases hai : a = id
    · subst hai
      by_cases hak : a = k
      · subst hak; simp [addTo, lookupD]
      · simp [addTo, lookupD, hak]
    · by_cases hak : a = k
      · subst hak
        have : id ≠ a := fun h => hai h.symm
        simp [addTo, lookupD, hai, this]
      · simp [addTo, lookupD, hai, hak, ih]

theorem addTo_keys (acc : List (String × ℤ)) (id : String) (v : ℤ) :
    (addTo acc id v).map Prod.fst =
      if id ∈ acc.map Prod.fst then acc.map Prod.fst
      else acc.map Prod.fst ++ [id] := by
  induction acc with
  | nil => simp [addTo]
  | cons p rest ih =>
    obtain ⟨a, x⟩ := p
    by_cases hai : a = id
    · subst hai; simp [addTo]
    · have : id ≠ a := fun h => hai h.symm
      by_cases hm : id ∈ rest.map Prod.fst
      · simp [addTo, hai, hm, ih, this]
      · simp [addTo, hai, hm, ih, this]

theorem mem_addTo_keys {acc : List (String × ℤ)} {id k : String} {v : ℤ} :
    k ∈ (addTo acc id v).map Prod.fst ↔ k ∈ acc.map Prod.fst ∨ k = id := by
  rw [addTo_keys]
  by_cases hm : id ∈ acc.map Prod.fst
  · simp only [hm, if_true]
    exact ⟨Or.inl, fun h => h.elim (fun h => h) (fun h => h ▸ hm)⟩
  · simp [hm]

theorem addTo_keys_nodup {acc : List (String × ℤ)} {id : String} {v : ℤ}
    (h : (acc.map Prod.fst).Nodup) : ((addTo acc id v).map Prod.fst).Nodup := by
  rw [addTo_keys]
  by_cases hm : id ∈ acc.map Prod.fst
  · simpa [hm]
  · simp only [hm, if_false]
    exact List.Nodup.append h (List.nodup_singleton id)
      (by simpa [List.disjoint_singleton] using hm)

/-! ### Characterization of the per-entry and per-file processing -/

theorem processEntry_ok_iff {acc : List (String × ℤ)} {id : String} {v : JsonValue}
    {a' : List (String × ℤ)} :
    processEntry acc id v = .ok a' ↔
      ∃ q, tokensOf v = some q ∧ q ≤ DENOMINATOR ∧
        a' = addTo acc id (truncQ (q * DENOMINATOR)) := by
  unfold processEntry
  cases h : tokensOf v with
  | none => simp
  | some q =>
    by_cases hq : q > DENOMINATOR
    · simp only [hq, if_true]
      constructor
      · intro h'; cases h'
      · rintro ⟨q', hq', hle, _⟩
        cases hq'
        exact absurd hq (not_lt.mpr hle)
    · simp only [hq, if_false, Except.ok.injEq, Option.some.injEq]
      constructor
      · intro h'; exact ⟨q, rfl, not_lt.mp hq, h'.symm⟩
      · rintro ⟨q', hq', _, rfl⟩
        cases hq'
        rfl

theorem processEntry_good {acc : List (String × ℤ)} {id : String} {v : JsonValue}
    {a' : List (String × ℤ)} (h : processEntry acc id v = .ok a') : goodEntry (id, v) := by
  obtain ⟨q, hq, hle, _⟩ := processEntry_ok_iff.mp h
  exact ⟨q, hq, hle⟩

theorem processEntry_isOk {id : String} {v : JsonValue} (h : goodEntry (id, v))
    (acc : List (String × ℤ)) : ∃ a', processEntry acc id v = .ok a' := by
  obtain ⟨q, hq, hle⟩ := h
  exact ⟨_, processEntry_ok_iff.mpr ⟨q, hq, hle, rfl⟩⟩

theorem fileContrib_nil (k : String) : fileContrib k [] = 0 := rfl

theorem fileContrib_cons (k : String) (e : String × JsonValue) (f : JFile) :
    fileContrib k (e :: f) = entryContrib k e + fileContrib k f := by
  simp [fileContrib]

theorem processFile_nil (acc : List (String × ℤ)) : processFile acc [] = .ok acc := rfl

theorem processFile_cons (acc : List (String × ℤ)) (e : String × JsonValue) (f : JFile) :
    processFile acc (e :: f) = processEntry acc e.1 e.2 >>= fun a => processFile a f := by
  simp [processFile]

theorem processFile_lookup {f : JFile} :
    ∀ {acc a' : List (String × ℤ)}, processFile acc f = .ok a' →
      ∀ k, lookupD 0 a' k = lookupD 0 acc k + fileContrib k f := by
  induction f with
  | nil =>
    intro acc a' h k
    rw [processFile_nil] at h
    cases h
    simp [fileContrib_nil]
  | cons e f ih =>
    intro acc a' h k
    rw [processFile_cons] at h
    obtain ⟨a₁, h₁, h₂⟩ := except_bind_ok _ _ _ h
    obtain ⟨q, hq, _, rfl⟩ := processEntry_ok_iff.mp h₁
    rw [ih h₂ k, lookupD_addTo, fileContrib_cons]
    have : entryContrib k e = if e.1 = k then truncQ (q * DENOMINATOR) else 0 := by
      simp [entryContrib, hq]
    rw [this]
    ring

theorem processFile_good {f : JFile} :
    ∀ {acc a' : List (String × ℤ)}, processFile acc f = .ok a' → ∀ e ∈ f, goodEntry e := by
  induction f with
  | nil => intro acc a' _ e he; simp at he
  | cons e₀ f ih =>
    intro acc a' h e he
    rw [processFile_cons] at h
    obtain ⟨a₁, h₁, h₂⟩ := except_bind_ok _ _ _ h
    rcases List.mem_cons.mp he with rfl | he'
    · exact processEntry_good h₁
    · exact ih h₂ e he'

theorem processFile_isOk {f : JFile} :
    ∀ (acc : List (String × ℤ)), (∀ e ∈ f, goodEntry e) →
      ∃ a', processFile acc f = .ok a' := by
  induction f with
  | nil => intro acc _; exact ⟨acc, rfl⟩
  | cons e f ih =>
    intro acc hf
    obtain ⟨a₁, h₁⟩ := processEntry_isOk (hf e (List.mem_cons_self e f)) acc
    obtain ⟨a', h₂⟩ := ih a₁ (fun e' he' => hf e' (List.mem_cons_of_mem e he'))
    exact ⟨a', by rw [processFile_cons, h₁]; exact h₂⟩

theorem processFile_keys {f : JFile} :
    ∀ {acc a' : List (String × ℤ)}, processFile acc f = .ok a' →
      ∀ k, k ∈ a'.map Prod.fst ↔ k ∈ acc.map Prod.fst ∨ ∃ e ∈ f, e.1 = k := by
  induction f with
  | nil =>
    intro acc a' h k
    rw [processFile_nil] at h
    cases h
    simp
  | cons e f ih =>
    intro acc a' h k
    rw [processFile_cons] at h
    obtain ⟨a₁, h₁, h₂⟩ := except_bind_ok _ _ _ h
    obtain ⟨q, hq, _, rfl⟩ := processEntry_ok_iff.mp h₁
    rw [ih h₂ k]
    simp only [mem_addTo_keys, List.mem_cons]
    constructor
    · rintro ((hk | rfl) | ⟨e', he', rfl⟩)
      · exact Or.inl hk
      · exact Or.inr ⟨e, Or.inl rfl, rfl⟩
      · exact Or.inr ⟨e', Or.inr he', rfl⟩
    · rintro (hk | ⟨e', (rfl | he'), rfl⟩)
      · exact Or.inl (Or.inl hk)
      · exact Or.inl (Or.inr rfl)
      · exact Or.inr ⟨e', he', rfl⟩

theorem processFile_nodup {f : JFile} :
    ∀ {acc a' : List (String × ℤ)}, processFile acc f = .ok a' →
      (acc.map Prod.fst).Nodup → (a'.map Prod.fst).Nodup := by
  induction f with
  | nil =>
    intro acc a' h hn
    rw [processFile_nil] at h
    cases h
    exact hn
  | cons e f ih =>
    intro acc a' h hn
    rw [processFile_cons] at h
    obtain ⟨a₁, h₁, h₂⟩ := except_bind_ok _ _ _ h
    obtain ⟨q, hq, _, rfl⟩ := processEntry_ok_iff.mp h₁
    exact ih h₂ (addTo_keys_nodup hn)

/-! ### Characterization of the whole accumulation loop -/

theorem contribSum_nil (k : String) : contribSum [] k = 0 := rfl

theorem contribSum_cons (f : JFile) (files : List JFile) (k : String) :
    contribSum (f :: files) k = fileContrib k f + contribSum files k := by
  simp [contribSum]

theorem accumFrom_nil (acc : List (String × ℤ)) : accumFrom acc [] = .ok acc := rfl

theorem accumFrom_cons (acc : List (String × ℤ)) (f : JFile) (files : List JFile) :
    accumFrom acc (f :: files) = processFile acc f >>= fun a => accumFrom a files := by
  simp [accumFrom]

theorem accumFrom_append (acc : List (String × ℤ)) (l₁ l₂ : List JFile) :
    accumFrom acc (l₁ ++ l₂) = accumFrom acc l₁ >>= fun a => accumFrom a l₂ := by
  induction l₁ generalizing acc with
  | nil => rfl
  | cons f l₁ ih =>
    rw [List.cons_append, accumFrom_cons, accumFrom_cons]
    cases processFile acc f with
    | error e => rfl
    | ok a => exact ih a

theorem accumFrom_lookup {files : List JFile} :
    ∀ {acc a : List (String × ℤ)}, accumFrom acc files = .ok a →
      ∀ k, lookupD 0 a k = lookupD 0 acc k + contribSum files k := by
  induction files with
  | nil =>
    intro acc a h k
    rw [accumFrom_nil] at h
    cases h
    simp [contribSum_nil]
  | cons f files ih =>
    intro acc a h k
    rw [accumFrom_cons] at h
    obtain ⟨a₁, h₁, h₂⟩ := except_bind_ok _ _ _ h
    rw [ih h₂ k, processFile_lookup h₁ k, contribSum_cons]
    ring

theorem accumFrom_good {files : List JFile} :
    ∀ {acc a : List (String × ℤ)}, accumFrom acc files = .ok a →
      ∀ f ∈ files, ∀ e ∈ f, goodEntry e := by
  induction files with
  | nil => intro acc a _ f hf; simp at hf
  | cons f₀ files ih =>
    intro acc a h f hf e he
    rw [accumFrom_cons] at h
    obtain ⟨a₁, h₁, h₂⟩ := except_bind_ok _ _ _ h
    rcases List.mem_cons.mp hf with rfl | hf'
    · exact processFile_good h₁ e he
    · exact ih h₂ f hf' e he

theorem accumFrom_isOk {files : List JFile} :
    ∀ (acc : List (String × ℤ)), (∀ f ∈ files, ∀ e ∈ f, goodEntry e) →
      ∃ a, accumFrom acc files = .ok a := by
  induction files with
  | nil => intro acc _; exact ⟨acc, rfl⟩
  | cons f files ih =>
    intro acc hg
    obtain ⟨a₁, h₁⟩ := processFile_isOk acc (hg f (List.mem_cons_self f files))
    obtain ⟨a, h₂⟩ := ih a₁ (fun f' hf' => hg f' (List.mem_cons_of_mem f hf'))
    exact ⟨a, by rw [accumFrom_cons, h₁]; exact h₂⟩

theorem accumFrom_keys {files : List JFile} :
    ∀ {acc a : List (String × ℤ)}, accumFrom acc files = .ok a →
      ∀ k, k ∈ a.map Prod.fst ↔
        k ∈ acc.map Prod.fst ∨ ∃ f ∈ files, ∃ e ∈ f, e.1 = k := by
  induction files with
  | nil =>
    intro acc a h k
    rw [accumFrom_nil] at h
    cases h
    simp
  | cons f files ih =>
    intro acc a h k
    rw [accumFrom_cons] at h
    obtain ⟨a₁, h₁, h₂⟩ := except_bind_ok _ _ _ h
    rw [ih h₂ k, processFile_keys h₁ k]
    simp only [List.mem_cons]
    constructor
    · rintro ((hk | ⟨e, he, rfl⟩) | ⟨f', hf', e, he, rfl⟩)
      · exact Or.inl hk
      · exact Or.inr ⟨f, Or.inl rfl, e, he, rfl⟩
      · exact Or.inr ⟨f', Or.inr hf', e, he, rfl⟩
    · rintro (hk | ⟨f', (rfl | hf'), e, he, rfl⟩)
      · exact Or.inl (Or.inl hk)
      · exact Or.inl (Or.inr ⟨e, he, rfl⟩)
      · exact Or.inr ⟨f', hf', e, he, rfl⟩

theorem accumFrom_nodup {files : List JFile} :
    ∀ {acc a : List (String × ℤ)}, accumFrom acc files = .ok a →
      (acc.map Prod.fst).Nodup → (a.map Prod.fst).Nodup := by
  induction files with
  | nil =>
    intro acc a h hn
    rw [accumFrom_nil] at h
    cases h
    exact hn
  | cons f files ih =>
    intro acc a h hn
    rw [accumFrom_cons] at h
    obtain ⟨a₁, h₁, h₂⟩ := except_bind_ok _ _ _ h
    exact ih h₂ (processFile_nodup h₁ hn)

theorem accumulate_lookup {files : List JFile} {a : List (String × ℤ)}
    (h : accumulate files = .ok a) (k : String) : lookupD 0 a k = contribSum files k := by
  have := accumFrom_lookup h k
  simpa [lookupD] using this

theorem accumulate_nodup {files : List JFile} {a : List (String × ℤ)}
    (h : accumulate files = .ok a) : (a.map Prod.fst).Nodup :=
  accumFrom_nodup h (by simp)

/-- The specified sum is invariant under permuting the list of files. -/
theorem contribSum_perm {files files' : List JFile} (h : files.Perm files') (k : String) :
    contribSum files k = contribSum files' k :=
  List.Perm.sum_eq (List.Perm.map (fileContrib k) h)

theorem accumulate_good {files : List JFile} {a : List (String × ℤ)}
    (h : accumulate files = .ok a) : ∀ f ∈ files, ∀ e ∈ f, goodEntry e :=
  accumFrom_good h

theorem ok_bind {ε α β : Type} (a : α) (g : α → Except ε β) :
    (Except.ok a >>= g : Except ε β) = g a := rfl

/-! ### Characterization of the final filtering pass -/

theorem finalize_isOk_iff {acc : List (String × ℤ)} :
    (∃ m, finalize acc = .ok m) ↔ ∀ p ∈ acc, p.2 < U64MAX := by
  induction acc with
  | nil => simp [finalize]
  | cons p rest ih =>
    obtain ⟨k, v⟩ := p
    unfold finalize
    by_cases hv : U64MAX ≤ v
    · simp only [hv, if_true]
      constructor
      · rintro ⟨m, hm⟩; cases hm
      · intro h
        exact absurd (h (k, v) (List.mem_cons_self _ _)) (not_lt.mpr hv)
    · simp only [hv, if_false]
      cases hrest : finalize rest with
      | error e =>
        constructor
        · rintro ⟨m, hm⟩; cases hm
        · intro h
          obtain ⟨m, hm⟩ := ih.mpr (fun p hp => h p (List.mem_cons_of_mem _ hp))
          rw [hrest] at hm; cases hm
      | ok r =>
        constructor
        · intro _ p hp
          rcases List.mem_cons.mp hp with rfl | hp'
          · exact not_le.mp hv
          · exact (ih.mp ⟨r, hrest⟩) p hp'
        · intro _; exact ⟨_, rfl⟩

theorem finalize_mem {acc : List (String × ℤ)} {m : List (String × ℕ)}
    (h : finalize acc = .ok m) (k : String) (n : ℕ) :
    (k, n) ∈ m ↔ ∃ v : ℤ, (k, v) ∈ acc ∧ 0 < v ∧ n = v.toNat := by
  induction acc generalizing m with
  | nil =>
    unfold finalize at h
    cases h
    simp
  | cons p rest ih =>
    obtain ⟨a, v⟩ := p
    unfold finalize at h
    by_cases hv : U64MAX ≤ v
    · rw [if_pos hv] at h; cases h
    · rw [if_neg hv] at h
      cases hrest : finalize rest with
      | error e => rw [hrest] at h; cases h
      | ok r =>
        rw [hrest] at h
        cases h
        by_cases hpos : 0 < v
        · rw [if_pos hpos]
          constructor
          · intro hm
            rcases List.mem_cons.mp hm with heq | hm'
            · obtain ⟨rfl, rfl⟩ := Prod.mk.injEq .. ▸ heq
              exact ⟨v, List.mem_cons_self _ _, hpos, rfl⟩
            · obtain ⟨w, hw, hwpos, rfl⟩ := (ih hrest).mp hm'
              exact ⟨w, List.mem_cons_of_mem _ hw, hwpos, rfl⟩
          · rintro ⟨w, hw, hwpos, rfl⟩
            rcases List.mem_cons.mp hw with heq | hw'
            · obtain ⟨rfl, rfl⟩ := Prod.mk.injEq .. ▸ heq
              exact List.mem_cons_self _ _
            · exact List.mem_cons_of_mem _ ((ih hrest).mpr ⟨w, hw', hwpos, rfl⟩)
        · rw [if_neg hpos]
          rw [ih hrest]
          constructor
          · rintro ⟨w, hw, hwpos, rfl⟩
            exact ⟨w, List.mem_cons_of_mem _ hw, hwpos, rfl⟩
          · rintro ⟨w, hw, hwpos, rfl⟩
            rcases List.mem_cons.mp hw with hw' | hw'
            · obtain ⟨rfl, rfl⟩ := Prod.mk.injEq .. ▸ hw'
              exact absurd hwpos hpos
            · exact ⟨w, hw', hwpos, rfl⟩

theorem finalize_lookup {acc : List (String × ℤ)} {m : List (String × ℕ)}
    (h : finalize acc = .ok m) (hnd : (acc.map Prod.fst).Nodup) (k : String) :
    lookupD 0 m k = (lookupD 0 acc k).toNat := by
  induction acc generalizing m with
  | nil =>
    unfold finalize at h
    cases h
    simp [lookupD]
  | cons p rest ih =>
    obtain ⟨a, v⟩ := p
    simp only [List.map_cons, List.nodup_cons] at hnd
    unfold finalize at h
    by_cases hv : U64MAX ≤ v
    · rw [if_pos hv] at h; cases h
    · rw [if_neg hv] at h
      cases hrest : finalize rest with
      | error e => rw [hrest] at h; cases h
      | ok r =>
        rw [hrest] at h
        cases h
        by_cases hak : a = k
        · subst hak
          by_cases hpos : 0 < v
          · rw [if_pos hpos]; simp [lookupD]
          · rw [if_neg hpos]
            have hin : a ∉ r.map Prod.fst := by
              intro hin
              obtain ⟨w, hw, hwpos, _⟩ :=
                (finalize_mem hrest a _).mp (lookupD_mem 0 r a hin)
              exact hnd.1 (mem_keys_of_mem hw)
            rw [lookupD_not_mem 0 hin]
            have : lookupD 0 ((a, v) :: rest) a = v := by simp [lookupD]
            rw [this]
            omega
        · have step : lookupD 0 (if 0 < v then (a, v.toNat) :: r else r) k = lookupD 0 r k := by
            by_cases hpos : 0 < v
            · rw [if_pos hpos]; simp [lookupD, hak]
            · rw [if_neg hpos]
          rw [step, ih hrest hnd.2]
          simp [lookupD, hak]

/-! ### Lemmas about the mint planner -/

theorem mintAmountsAux_no_rand (draws : ℕ → ℚ) (ms : ℕ) :
    ∀ (i : ℕ) (bal : List (String × ℕ)),
      mintAmountsAux draws ms false i bal = bal.map (fun p => (p.1, min p.2 ms)) := by
  intro i bal
  induction bal generalizing i with
  | nil => rfl
  | cons p rest ih =>
    obtain ⟨id, b⟩ := p
    simp [mintAmountsAux, effectiveCap, ih]

theorem mintAmountsAux_entry_src (draws : ℕ → ℚ) (ms : ℕ) (rand : Bool) :
    ∀ (i : ℕ) (bal : List (String × ℕ)) (k : String) (amt : ℕ),
      (k, amt) ∈ mintAmountsAux draws ms rand i bal →
        ∃ b c, (k, b) ∈ bal ∧ amt = min b c := by
  intro i bal
  induction bal generalizing i with
  | nil => intro k amt h; simp [mintAmountsAux] at h
  | cons p rest ih =>
    obtain ⟨id, b⟩ := p
    intro k amt h
    simp only [mintAmountsAux, List.mem_cons] at h
    rcases h with heq | h'
    · obtain ⟨rfl, rfl⟩ := Prod.mk.injEq .. ▸ heq
      exact ⟨b, _, List.mem_cons_self _ _, rfl⟩
    · obtain ⟨b', c, hb', hamt⟩ := ih (i + 1) k amt h'
      exact ⟨b', c, List.mem_cons_of_mem _ hb', hamt⟩

theorem mintAmountsAux_keys (draws : ℕ → ℚ) (ms : ℕ) (rand : Bool) :
    ∀ (i : ℕ) (bal : List (String × ℕ)),
      (mintAmountsAux draws ms rand i bal).map Prod.fst = bal.map Prod.fst := by
  intro i bal
  induction bal generalizing i with
  | nil => rfl
  | cons p rest ih =>
    obtain ⟨id, b⟩ := p
    simp [mintAmountsAux, ih]

theorem filter_not_flags_of_no_flags {l : List ConsoleLine}
    (h : ∀ c ∈ l, isFlagsLine c = false) :
    List.filter (fun c => !isFlagsLine c) l = l := by
  apply List.filter_eq_self.mpr
  intro c hc
  rw [h c hc]
  rfl

theorem isFlagsLine_planItems {c : ConsoleLine} {l : List (String × ℕ)} {w : ℕ}
    (hc : c ∈ planItems l w) : isFlagsLine c = false := by
  obtain ⟨p, _, rfl⟩ := List.mem_map.mp hc
  rfl

theorem isFlagsLine_stdout {c : ConsoleLine} {l : List (String × ℕ)} {opts : MintOpt}
    (hc : c ∈ stdoutItems l opts) : isFlagsLine c = false := by
  unfold stdoutItems at hc
  by_cases hj : opts.json
  · rw [if_pos hj] at hc
    rcases List.mem_singleton.mp hc with rfl
    rfl
  · rw [if_neg hj] at hc
    by_cases he : l.isEmpty
    · rw [if_pos he] at hc; cases hc
    · rw [if_neg he] at hc
      rcases List.mem_singleton.mp hc with rfl
      rfl

/-! ### Lemmas for the refined aggregator -/

theorem processEntryF_ok_iff {acc : List (String × ℤ)} {id : String} {v : JsonValue}
    {a' : List (String × ℤ)} :
    processEntryF acc id v = .ok a' ↔
      ∃ t, tokensOfF v = some t ∧ f64AboveDen t = false ∧
        a' = addTo acc id (scaleF t) := by
  unfold processEntryF
  cases h : tokensOfF v with
  | none => simp
  | some t =>
    show (if f64AboveDen t = true then Except.error (AggError.amountTooLarge id)
        else Except.ok (addTo acc id (scaleF t))) = Except.ok a' ↔ _
    cases htf : f64AboveDen t with
    | true =>
      rw [if_pos rfl]
      constructor
      · intro h'; cases h'
      · rintro ⟨t', ht', hfalse, _⟩
        cases ht'
        rw [htf] at hfalse
        cases hfalse
    | false =>
      rw [if_neg (by simp)]
      constructor
      · intro h'
        cases h'
        exact ⟨t, rfl, htf, rfl⟩
      · rintro ⟨t', htt, _, rfl⟩
        cases htt
        rfl

theorem processEntryF_good {acc : List (String × ℤ)} {id : String} {v : JsonValue}
    {a' : List (String × ℤ)} (h : processEntryF acc id v = .ok a') :
    goodEntryF (id, v) := by
  obtain ⟨t, ht, htf, _⟩ := processEntryF_ok_iff.mp h
  exact ⟨t, ht, htf⟩

theorem processEntryF_isOk {id : String} {v : JsonValue} (h : goodEntryF (id, v))
    (acc : List (String × ℤ)) : ∃ a', processEntryF acc id v = .ok a' := by
  obtain ⟨t, ht, htf⟩ := h
  exact ⟨_, processEntryF_ok_iff.mpr ⟨t, ht, htf, rfl⟩⟩

theorem fileContribF_cons (k : String) (e : String × JsonValue) (f : JFile) :
    fileContribF k (e :: f) = entryContribF k e + fileContribF k f := by
  simp [fileContribF]

theorem processFileF_nil (acc : List (String × ℤ)) : processFileF acc [] = .ok acc := rfl

theorem processFileF_cons (acc : List (String × ℤ)) (e : String × JsonValue) (f : JFile) :
    processFileF acc (e :: f) = processEntryF acc e.1 e.2 >>= fun a => processFileF a f := by
  simp [processFileF]

theorem processFileF_lookup {f : JFile} :
    ∀ {acc a' : List (String × ℤ)}, processFileF acc f = .ok a' →
      ∀ k, lookupD 0 a' k = lookupD 0 acc k + fileContribF k f := by
  induction f with
  | nil =>
    intro acc a' h k
    rw [processFileF_nil] at h
    cases h
    simp [fileContribF]
  | cons e f ih =>
    intro acc a' h k
    rw [processFileF_cons] at h
    obtain ⟨a₁, h₁, h₂⟩ := except_bind_ok _ _ _ h
    obtain ⟨t, ht, _, rfl⟩ := processEntryF_ok_iff.mp h₁
    rw [ih h₂ k, lookupD_addTo, fileContribF_cons]
    have : entryContribF k e = if e.1 = k then scaleF t else 0 := by
      simp [entryContribF, ht]
    rw [this]
    ring

theorem processFileF_good {f : JFile} :
    ∀ {acc a' : List (String × ℤ)}, processFileF acc f = .ok a' →
      ∀ e ∈ f, goodEntryF e := by
  induction f with
  | nil => intro acc a' _ e he; simp at he
  | cons e₀ f ih =>
    intro acc a' h e he
    rw [processFileF_cons] at h
    obtain ⟨a₁, h₁, h₂⟩ := except_bind_ok _ _ _ h
    rcases List.mem_cons.mp he with rfl | he'
    · exact processEntryF_good h₁
    · exact ih h₂ e he'

theorem processFileF_isOk {f : JFile} :
    ∀ (acc : List (String × ℤ)), (∀ e ∈ f, goodEntryF e) →
      ∃ a', processFileF acc f = .ok a' := by
  induction f with
  | nil => intro acc _; exact ⟨acc, rfl⟩
  | cons e f ih =>
    intro acc hf
    obtain ⟨a₁, h₁⟩ := processEntryF_isOk (hf e (List.mem_cons_self e f)) acc
    obtain ⟨a', h₂⟩ := ih a₁ (fun e' he' => hf e' (List.mem_cons_of_mem e he'))
    exact ⟨a', by rw [processFileF_cons, h₁]; exact h₂⟩

theorem processFileF_nodup {f : JFile} :
    ∀ {acc a' : List (String × ℤ)}, processFileF acc f = .ok a' →
      (acc.map Prod.fst).Nodup → (a'.map Prod.fst).Nodup := by
  induction f with
  | nil =>
    intro acc a' h hn
    rw [processFileF_nil] at h
    cases h
    exact hn
  | cons e f ih =>
    intro acc a' h hn
    rw [processFileF_cons] at h
    obtain ⟨a₁, h₁, h₂⟩ := except_bind_ok _ _ _ h
    obtain ⟨t, ht, _, rfl⟩ := processEntryF_ok_iff.mp h₁
    exact ih h₂ (addTo_keys_nodup hn)

theorem accumFromF_nil (acc : List (String × ℤ)) : accumFromF acc [] = .ok acc := rfl

theorem accumFromF_cons (acc : List (String × ℤ)) (f : JFile) (files : List JFile) :
    accumFromF acc (f :: files) = processFileF acc f >>= fun a => accumFromF a files := by
  simp [accumFromF]

theorem accumFromF_append (acc : List (String × ℤ)) (l₁ l₂ : List JFile) :
    accumFromF acc (l₁ ++ l₂) = accumFromF acc l₁ >>= fun a => accumFromF a l₂ := by
  induction l₁ generalizing acc with
  | nil => rfl
  | cons f l₁ ih =>
    rw [List.cons_append, accumFromF_cons, accumFromF_cons]
    cases processFileF acc f with
    | error e => rfl
    | ok a => exact ih a

theorem accumFromF_good {files : List JFile} :
    ∀ {acc a : List (String × ℤ)}, accumFromF acc files = .ok a →
      ∀ f ∈ files, ∀ e ∈ f, goodEntryF e := by
  induction files with
  | nil => intro acc a _ f hf; simp at hf
  | cons f₀ files ih =>
    intro acc a h f hf e he
    rw [accumFromF_cons] at h
    obtain ⟨a₁, h₁, h₂⟩ := except_bind_ok _ _ _ h
    rcases List.mem_cons.mp hf with rfl | hf'
    · exact processFileF_good h₁ e he
    · exact ih h₂ f hf' e he

theorem accumFromF_nodup {files : List JFile} :
    ∀ {acc a : List (String × ℤ)}, accumFromF acc files = .ok a →
      (acc.map Prod.fst).Nodup → (a.map Prod.fst).Nodup := by
  induction files with
  | nil =>
    intro acc a h hn
    rw [accumFromF_nil] at h
    cases h
    exact hn
  | cons f files ih =>
    intro acc a h hn
    rw [accumFromF_cons] at h
    obtain ⟨a₁, h₁, h₂⟩ := except_bind_ok _ _ _ h
    exact ih h₂ (processFileF_nodup h₁ hn)

theorem accumulateF_good {files : List JFile} {a : List (String × ℤ)}
    (h : accumulateF files = .ok a) : ∀ f ∈ files, ∀ e ∈ f, goodEntryF e :=
  accumFromF_good h

theorem accumulateF_nodup {files : List JFile} {a : List (String × ℤ)}
    (h : accumulateF files = .ok a) : (a.map Prod.fst).Nodup :=
  accumFromF_nodup h (by simp)

theorem fileContribF_zero_of_no_key (k : String) (f : JFile)
    (h : ∀ e ∈ f, e.1 ≠ k) : fileContribF k f = 0 := by
  induction f with
  | nil => rfl
  | cons e f ih =>
    rw [fileContribF_cons]
    have he : entryContribF k e = 0 := by
      simp [entryContribF, h e (List.mem_cons_self _ _)]
    rw [he, ih (fun e' he' => h e' (List.mem_cons_of_mem _ he'))]
    ring

theorem qpow2_pos (e : ℤ) : 0 < qpow2 e := by
  unfold qpow2
  by_cases h : 0 ≤ e
  · rw [if_pos h]; positivity
  · rw [if_neg h]; positivity

theorem rnde_nonneg {m0 : ℚ} (h : 0 ≤ m0) : 0 ≤ rnde m0 := by
  unfold rnde
  have hfl : 0 ≤ ⌊m0⌋ := Int.floor_nonneg.mpr h
  split_ifs <;> omega

theorem f64RoundPos_nonneg {q : ℚ} (h : 0 ≤ q) : 0 ≤ f64RoundPos q := by
  unfold f64RoundPos
  apply mul_nonneg _ (qpow2_pos _).le
  exact_mod_cast rnde_nonneg (mul_nonneg h (qpow2_pos _).le)

theorem f64Round_nonneg {q : ℚ} (h : 0 ≤ q) : 0 ≤ f64Round q := by
  unfold f64Round
  by_cases h0 : q = 0
  · rw [if_pos h0]
  · rw [if_neg h0, if_pos (lt_of_le_of_ne h (fun hh => h0 hh.symm))]
    exact f64RoundPos_nonneg h

theorem f64Round_nonpos {q : ℚ} (h : q ≤ 0) : f64Round q ≤ 0 := by
  unfold f64Round
  by_cases h0 : q = 0
  · rw [if_pos h0]
  · rw [if_neg h0, if_neg (by intro hlt; exact h0 (le_antisymm h hlt.le))]
    have : 0 ≤ f64RoundPos (-q) := f64RoundPos_nonneg (by linarith)
    linarith

theorem truncQ_nonpos {q : ℚ} (h : q ≤ 0) : truncQ q ≤ 0 := by
  unfold truncQ
  by_cases h0 : 0 ≤ q
  · rw [if_pos h0]
    have : q = 0 := le_antisymm h h0
    simp [this]
  · rw [if_neg h0]
    exact_mod_cast Int.ceil_le.mpr (by exact_mod_cast h)

theorem auditValue_nonpos (a : ℕ) : auditValue a ≤ 0 := by
  unfold auditValue
  have h1 : (0 : ℚ) ≤ f64Round (a : ℚ) := f64Round_nonneg (by positivity)
  have h2 : (0 : ℚ) < DENOMINATOR := by norm_num [DENOMINATOR]
  have h3 : (0 : ℚ) ≤ f64Round (a : ℚ) / DENOMINATOR := div_nonneg h1 h2.le
  have h4 : (0 : ℚ) ≤ f64Round (f64Round (a : ℚ) / DENOMINATOR) := f64Round_nonneg h3
  linarith

theorem auditReadBack_nonpos (a : ℕ) : auditReadBack a ≤ 0 := by
  unfold auditReadBack scaleF
  apply truncQ_nonpos
  apply f64Round_nonpos
  have h1 := auditValue_nonpos a
  have h2 : (0 : ℚ) ≤ DENOMINATOR := by norm_num [DENOMINATOR]
  exact mul_nonpos_of_nonpos_of_nonneg h1 h2

theorem auditReadBack_eq_neg_readBackN (a : ℕ) :
    auditReadBack a = -(readBackN a : ℤ) := by
  have h := auditReadBack_nonpos a
  unfold readBackN
  omega

theorem auditFileF_keys (plan : List (String × ℕ)) :
    (auditFileF plan).map Prod.fst = plan.map Prod.fst := by
  unfold auditFileF
  rw [List.map_map]
  rfl

theorem auditFileF_good (plan : List (String × ℕ)) :
    ∀ e ∈ auditFileF plan, goodEntryF e := by
  intro e he
  obtain ⟨p, _, rfl⟩ := List.mem_map.mp he
  refine ⟨.fin (auditValue p.2), rfl, ?_⟩
  have h1 := auditValue_nonpos p.2
  have h2 : (0 : ℚ) < DENOMINATOR := by norm_num [DENOMINATOR]
  simp only [f64AboveDen, decide_eq_false_iff_not, not_lt]
  linarith

theorem auditFileF_contrib (plan : List (String × ℕ)) (k : String)
    (hnd : (plan.map Prod.fst).Nodup) :
    fileContribF k (auditFileF plan) = auditReadBack (lookupD 0 plan k) := by
  induction plan with
  | nil =>
    show (0 : ℤ) = auditReadBack 0
    decide
  | cons p rest ih =>
    obtain ⟨a, amt⟩ := p
    simp only [List.map_cons, List.nodup_cons] at hnd
    rw [show auditFileF ((a, amt) :: rest) =
        (a, JsonValue.num (auditValue amt)) :: auditFileF rest from rfl,
      fileContribF_cons]
    by_cases hak : a = k
    · subst hak
      have he : entryContribF a (a, JsonValue.num (auditValue amt)) =
          auditReadBack amt := by
        simp [entryContribF, tokensOfF, auditReadBack]
      have hrest : fileContribF a (auditFileF rest) = 0 := by
        apply fileContribF_zero_of_no_key
        intro e he' hk
        have : a ∈ rest.map Prod.fst := by
          rw [← auditFileF_keys rest, ← hk]
          exact mem_keys_of_mem he'
        exact hnd.1 this
      rw [he, hrest]
      simp [lookupD]
    · have he : entryContribF k (a, JsonValue.num (auditValue amt)) = 0 := by
        simp [entryContribF, hak]
      rw [he, ih hnd.2]
      simp [lookupD, hak]

theorem consoleSansFlags_mint (now : String) (bal : List (String × ℕ)) (opts : MintOpt)
    (draws : ℕ → ℚ) :
    consoleSansFlags (mint now bal opts draws) =
      ConsoleLine.header :: ConsoleLine.date now :: ConsoleLine.blank ::
        (planItems (mintToMint bal opts draws) (longestWidth (mintToMint bal opts draws)) ++
          ConsoleLine.separator :: stdoutItems (mintToMint bal opts draws) opts) := by
  unfold consoleSansFlags mint mintConsole
  show ConsoleLine.header :: ConsoleLine.date now :: ConsoleLine.blank ::
      List.filter (fun c => !isFlagsLine c)
        (planItems (mintToMint bal opts draws) (longestWidth (mintToMint bal opts draws)) ++
          ConsoleLine.separator :: stdoutItems (mintToMint bal opts draws) opts) = _
  rw [filter_not_flags_of_no_flags]
  intro c hc
  rcases List.mem_append.mp hc with hc | hc
  · exact isFlagsLine_planItems hc
  · rcases List.mem_cons.mp hc with rfl | hc
    · rfl
    · exact isFlagsLine_stdout hc

/-! ### The decimal rendering of audit amounts parses back exactly -/

theorem natDigitsAux_fuel (n : ℕ) : ∀ (f₁ f₂ : ℕ), n < f₁ → n < f₂ →
    natDigitsAux f₁ n = natDigitsAux f₂ n := by
  induction n using Nat.strong_induction_on with
  | _ n ih =>
    intro f₁ f₂ h₁ h₂
    cases f₁ with
    | zero => omega
    | succ g₁ =>
      cases f₂ with
      | zero => omega
      | succ g₂ =>
        simp only [natDigitsAux]
        by_cases h : n < 10
        · simp [h]
        · simp only [h, if_false]
          congr 1
          exact ih (n / 10) (Nat.div_lt_self (by omega) (by omega)) g₁ g₂
            (by omega) (by omega)

theorem natDigits_eq (n : ℕ) :
    natDigits n = if n < 10 then [digitChar n]
      else natDigits (n / 10) ++ [digitChar (n % 10)] := by
  by_cases h : n < 10
  · simp [natDigits, natDigitsAux, h]
  · simp only [natDigits, natDigitsAux, h, if_false]
    congr 1
    exact natDigitsAux_fuel (n / 10) n (n / 10 + 1) (by omega) (by omega)

theorem digitVal_digitChar {d : ℕ} (h : d < 10) : digitVal (digitChar d) = d := by
  interval_cases d <;> rfl

theorem isDigit_digitChar {d : ℕ} (h : d < 10) : (digitChar d).isDigit = true := by
  interval_cases d <;> decide

theorem digit_ne_comma {c : Char} (h : c.isDigit = true) : c ≠ ',' := by
  intro hc
  rw [hc] at h
  exact absurd h (by decide)

theorem digitsVal_append_singleton (ds : List Char) (c : Char) :
    digitsVal (ds ++ [c]) = digitsVal ds * 10 + digitVal c := by
  simp [digitsVal, List.foldl_append]

theorem digitsVal_natDigits (n : ℕ) : digitsVal (natDigits n) = n := by
  induction n using Nat.strong_induction_on with
  | _ n ih =>
    rw [natDigits_eq]
    by_cases h : n < 10
    · simp only [h, if_true]
      simp only [digitsVal, List.foldl_cons, List.foldl_nil]
      rw [digitVal_digitChar h]
      omega
    · simp only [h, if_false]
      rw [digitsVal_append_singleton, ih (n / 10) (Nat.div_lt_self (by omega) (by omega)),
        digitVal_digitChar (Nat.mod_lt n (by omega))]
      omega

theorem natDigits_all_digits (n : ℕ) : ∀ c ∈ natDigits n, c.isDigit = true := by
  induction n using Nat.strong_induction_on with
  | _ n ih =>
    rw [natDigits_eq]
    by_cases h : n < 10
    · simp only [h, if_true, List.mem_singleton]
      rintro c rfl
      exact isDigit_digitChar h
    · simp only [h, if_false]
      intro c hc
      rcases List.mem_append.mp hc with hc | hc
      · exact ih (n / 10) (Nat.div_lt_self (by omega) (by omega)) c hc
      · rcases List.mem_singleton.mp hc with rfl
        exact isDigit_digitChar (Nat.mod_lt n (by omega))

theorem natDigits_ne_nil (n : ℕ) : natDigits n ≠ [] := by
  rw [natDigits_eq]
  by_cases h : n < 10
  · simp [h]
  · simp [h]

theorem natDigits_length_le : ∀ (n k : ℕ), 1 ≤ k → n < 10 ^ k →
    (natDigits n).length ≤ k := by
  intro n
  induction n using Nat.strong_induction_on with
  | _ n ih =>
    intro k hk hn
    rw [natDigits_eq]
    by_cases h : n < 10
    · simp [h]; omega
    · simp only [h, if_false, List.length_append, List.length_singleton]
      have hk2 : 2 ≤ k := by
        by_contra hlt
        have : k = 1 := by omega
        subst this
        simp at hn
        omega
      have hdiv : n / 10 < 10 ^ (k - 1) := by
        rw [Nat.div_lt_iff_lt_mul (by omega)]
        calc n < 10 ^ k := hn
        _ = 10 ^ (k - 1) * 10 := by
              rw [← pow_succ]
              congr 1
              omega
      have := ih (n / 10) (Nat.div_lt_self (by omega) (by omega)) (k - 1) (by omega) hdiv
      omega

theorem digitsVal_leading_zeros (z : ℕ) (ds : List Char) :
    digitsVal (List.replicate z '0' ++ ds) = digitsVal ds := by
  induction z with
  | zero => simp
  | succ z ih =>
    rw [List.replicate_succ, List.cons_append]
    simp only [digitsVal, List.foldl_cons]
    rw [show (0 * 10 + digitVal '0') = 0 from rfl]
    exact ih

theorem pad9_length {m : ℕ} (h : m < 10 ^ 9) : (pad9 m).length = 9 := by
  unfold pad9
  rw [List.length_append, List.length_replicate]
  have := natDigits_length_le m 9 (by omega) h
  omega

theorem digitsVal_pad9 (m : ℕ) : digitsVal (pad9 m) = m := by
  unfold pad9
  rw [digitsVal_leading_zeros, digitsVal_natDigits]

theorem pad9_all_digits (m : ℕ) : ∀ c ∈ pad9 m, c.isDigit = true := by
  intro c hc
  rcases List.mem_append.mp hc with hc | hc
  · rcases List.eq_of_mem_replicate hc with rfl
    decide
  · exact natDigits_all_digits m c hc

theorem takeDigits_all {ds rest : List Char} (hd : ∀ c ∈ ds, c.isDigit = true)
    (hr : ∀ c, rest.head? = some c → c.isDigit = false) :
    takeDigits (ds ++ rest) = (ds, rest) := by
  induction ds with
  | nil =>
    simp only [List.nil_append]
    cases rest with
    | nil => rfl
    | cons c t =>
      have := hr c rfl
      simp [takeDigits, this]
  | cons c ds ih =>
    have hc := hd c (List.mem_cons_self _ _)
    simp only [List.cons_append, takeDigits, hc, if_true]
    have ih' := ih (fun c' hc' => hd c' (List.mem_cons_of_mem _ hc'))
    rw [show ds.append rest = ds ++ rest from rfl, ih']

theorem parseUnsigned_intfrac (ip fp : List Char)
    (hip : ∀ c ∈ ip, c.isDigit = true) (hne : ip ≠ [])
    (hfp : ∀ c ∈ fp, c.isDigit = true) :
    parseUnsigned (ip ++ '.' :: fp) =
      some ((digitsVal ip : ℚ) + (digitsVal fp : ℚ) / (10 : ℚ) ^ fp.length) := by
  have h1 : takeDigits (ip ++ '.' :: fp) = (ip, '.' :: fp) := by
    apply takeDigits_all hip
    intro c hc
    cases hc
    decide
  have h2 : takeDigits fp = (fp, []) := by
    have hr : ∀ c : Char, ([] : List Char).head? = some c → c.isDigit = false := by
      intro c hc
      cases hc
    have := takeDigits_all hfp hr
    simpa using this
  have hie : ip.isEmpty = false := by
    cases ip with
    | nil => exact absurd rfl hne
    | cons a l => rfl
  simp only [parseUnsigned, h1, h2, hie, Bool.false_and, if_false, parseExpPart]
  rw [if_neg (by decide)]
  simp only [Option.map_some']
  congr 1
  rw [show qpow10 0 = 1 from by norm_num [qpow10]]
  ring

theorem parseDecimal_neg_mk (cs : List Char) :
    parseDecimal (String.mk ('-' :: cs)) = (parseUnsigned cs).map (fun q => -q) := rfl

theorem stripCommas_mk_of_no_comma {cs : List Char} (h : ∀ c ∈ cs, c ≠ ',') :
    stripCommas (String.mk cs) = String.mk cs := by
  unfold stripCommas
  congr 1
  rw [show (String.mk cs).toList = cs from rfl]
  apply List.filter_eq_self.mpr
  intro c hc
  simpa using h c hc

theorem fmt9chars_no_comma (s : ℕ) : ∀ c ∈ fmt9chars s, c ≠ ',' := by
  intro c hc
  unfold fmt9chars at hc
  rcases List.mem_append.mp hc with hc | hc
  · exact digit_ne_comma (natDigits_all_digits _ c hc)
  · rcases List.mem_cons.mp hc with rfl | hc
    · decide
    · exact digit_ne_comma (pad9_all_digits _ c hc)

theorem parseDecimal_auditAmountString (a : ℕ) :
    parseDecimal (auditAmountString a) = some (-((a : ℚ) / DENOMINATOR)) := by
  unfold auditAmountString
  rw [parseDecimal_neg_mk]
  unfold fmt9chars
  rw [parseUnsigned_intfrac _ _ (natDigits_all_digits _) (natDigits_ne_nil _)
    (pad9_all_digits _)]
  rw [Option.map_some']
  congr 1
  rw [digitsVal_natDigits, digitsVal_pad9, pad9_length (Nat.mod_lt a (by norm_num))]
  have hmod : (10 : ℚ) ^ 9 * ((a / 10 ^ 9 : ℕ) : ℚ) + ((a % 10 ^ 9 : ℕ) : ℚ) = (a : ℚ) := by
    rw [show ((10 : ℚ) ^ 9) = ((10 ^ 9 : ℕ) : ℚ) from by push_cast; ring]
    rw [← Nat.cast_mul, ← Nat.cast_add]
    congr 1
    exact Nat.div_add_mod a (10 ^ 9)
  have hD : DENOMINATOR = (10 : ℚ) ^ 9 := by norm_num [DENOMINATOR]
  rw [hD]
  have h9 : ((10 : ℚ) ^ 9) ≠ 0 := by norm_num
  field_simp
  linarith [hmod]

theorem truncQ_intCast (z : ℤ) : truncQ (z : ℚ) = z := by
  unfold truncQ
  by_cases h : (0 : ℚ) ≤ (z : ℚ)
  · rw [if_pos h, Int.floor_intCast]
  · rw [if_neg h, Int.ceil_intCast]

/-! ### Feeding an audit file back into the aggregator -/

theorem finalize_keys_sublist {acc : List (String × ℤ)} {m : List (String × ℕ)}
    (h : finalize acc = .ok m) : (m.map Prod.fst).Sublist (acc.map Prod.fst) := by
  induction acc generalizing m with
  | nil =>
    unfold finalize at h
    cases h
    simp
  | cons p rest ih =>
    obtain ⟨a, v⟩ := p
    unfold finalize at h
    by_cases hv : U64MAX ≤ v
    · rw [if_pos hv] at h; cases h
    · rw [if_neg hv] at h
      cases hrest : finalize rest with
      | error e => rw [hrest] at h; cases h
      | ok r =>
        rw [hrest] at h
        cases h
        by_cases hpos : 0 < v
        · rw [if_pos hpos]
          exact List.Sublist.cons₂ a (ih hrest)
        · rw [if_neg hpos]
          exact List.Sublist.cons a (ih hrest)

theorem bind_pure_except {ε α : Type} (x : Except ε α) :
    (x >>= fun a => (Except.ok a : Except ε α)) = x := by
  cases x <;> rfl

theorem fileContrib_zero_of_no_key (k : String) (f : JFile)
    (h : ∀ e ∈ f, e.1 ≠ k) : fileContrib k f = 0 := by
  induction f with
  | nil => rfl
  | cons e f ih =>
    rw [fileContrib_cons]
    have he : entryContrib k e = 0 := by
      simp [entryContrib, h e (List.mem_cons_self _ _)]
    rw [he, ih (fun e' he' => h e' (List.mem_cons_of_mem _ he'))]
    ring

/-! ### The claims -/

/-- C1: for every set of input JSON files, the aggregated balance returned
for an identifier equals the sum, over all files and all occurrences of that
identifier, of each occurrence's decimal amount multiplied by 10^9 and
truncated to an integer, and this result is the same for every processing
order of the files. -/
theorem read_all_jsons_sum_perm_invariant
    (files files' : List JFile) (hperm : files.Perm files')
    (m : List (String × ℕ)) (h : read_all_jsons files = .ok m)
    (id : String) (n : ℕ) (hmem : (id, n) ∈ m) :
    (n : ℤ) = contribSum files id ∧
      ∀ m', read_all_jsons files' = .ok m' → (id, n) ∈ m' := by
  unfold read_all_jsons at h
  obtain ⟨a, ha, hfin⟩ := except_bind_ok _ _ _ h
  obtain ⟨v, hv, hvpos, rfl⟩ := (finalize_mem hfin id n).mp hmem
  have hnd := accumulate_nodup ha
  have hlook : lookupD 0 a id = v := lookupD_eq_of_mem 0 hnd hv
  have hsum : (v.toNat : ℤ) = contribSum files id := by
    rw [Int.toNat_of_nonneg hvpos.le, ← accumulate_lookup ha id, hlook]
  refine ⟨hsum, ?_⟩
  intro m' h'
  unfold read_all_jsons at h'
  obtain ⟨a', ha', hfin'⟩ := except_bind_ok _ _ _ h'
  have hlook' : lookupD 0 a' id = v := by
    rw [accumulate_lookup ha' id, ← contribSum_perm hperm id,
      ← accumulate_lookup ha id, hlook]
  have hidkeys : id ∈ a'.map Prod.fst := by
    by_contra hno
    rw [lookupD_not_mem 0 hno] at hlook'
    omega
  have hmem' : (id, v) ∈ a' := by
    have := lookupD_mem 0 a' id hidkeys
    rwa [hlook'] at this
  exact (finalize_mem hfin' id v.toNat).mpr ⟨v, hmem', hvpos, rfl⟩

theorem read_all_jsons_sum_perm_invariant_witness :
    ((3000000000 : ℕ) : ℤ) =
      contribSum [[("a", JsonValue.num 1)], [("a", JsonValue.num 2)]] "a" ∧
    ("a", (3000000000 : ℕ)) ∈ ([("a", (3000000000 : ℕ))] : List (String × ℕ)) := by
  have h := read_all_jsons_sum_perm_invariant
    [[("a", JsonValue.num 1)], [("a", JsonValue.num 2)]]
    [[("a", JsonValue.num 2)], [("a", JsonValue.num 1)]]
    (by decide) [("a", 3000000000)] (by decide) "a" 3000000000 (by decide)
  exact ⟨h.1, h.2 [("a", 3000000000)] (by decide)⟩

/-- C4: for every input (identifier, amount) pair, if the decimal amount
before scaling exceeds the denominator 10^9, aggregation fails fatally
(the sanity check of main.rs lines 83-85). -/
theorem amount_above_denominator_fatal
    (files : List JFile) (file : JFile) (e : String × JsonValue) (q : ℚ)
    (hf : file ∈ files) (he : e ∈ file)
    (hq : tokensOf e.2 = some q) (hgt : DENOMINATOR < q) :
    exceptIsOk (read_all_jsons files) = false := by
  unfold read_all_jsons
  cases hacc : accumulate files with
  | error err => rfl
  | ok a =>
    exfalso
    obtain ⟨q', hq', hle⟩ := accumulate_good hacc file hf e he
    rw [hq] at hq'
    cases hq'
    exact absurd hgt (not_lt.mpr hle)

theorem amount_above_denominator_fatal_witness :
    exceptIsOk (read_all_jsons [[("bad", JsonValue.num 1000000001)]]) = false :=
  amount_above_denominator_fatal [[("bad", JsonValue.num 1000000001)]]
    [("bad", JsonValue.num 1000000001)] ("bad", JsonValue.num 1000000001) 1000000001
    (by decide) (by decide) rfl (by decide)

/-- C5: after processing all files, an identifier whose accumulated scaled
value is at or above `u64::MAX` makes aggregation fail fatally rather than
return a result (main.rs lines 103-105). -/
theorem accumulated_overflow_fatal
    (files : List JFile) (a : List (String × ℤ)) (id : String)
    (ha : accumulate files = .ok a) (hbig : U64MAX ≤ lookupD 0 a id) :
    exceptIsOk (read_all_jsons files) = false := by
  unfold read_all_jsons
  rw [ha, ok_bind]
  have hid : id ∈ a.map Prod.fst := by
    by_contra hno
    rw [lookupD_not_mem 0 hno] at hbig
    have : (0 : ℤ) < U64MAX := by decide
    omega
  have hmem := lookupD_mem 0 a id hid
  cases hfin : finalize a with
  | error e => rfl
  | ok m =>
    exfalso
    have := finalize_isOk_iff.mp ⟨m, hfin⟩ (id, lookupD 0 a id) hmem
    simp only at this
    omega

theorem accumulated_overflow_fatal_witness :
    exceptIsOk (read_all_jsons (List.replicate 19 [("a", JsonValue.num (10 ^ 9))])) =
      false :=
  accumulated_overflow_fatal (List.replicate 19 [("a", JsonValue.num (10 ^ 9))])
    [("a", 19 * 10 ^ 18)] "a" (by decide) (by decide)

/-- C6: every identifier in the aggregator's returned ledger has a strictly
positive accumulated scaled value (which the returned balance equals), and an
identifier whose accumulated value is zero or negative never appears in the
output (main.rs lines 107-111). -/
theorem read_all_jsons_positive
    (files : List JFile) (m : List (String × ℕ)) (h : read_all_jsons files = .ok m) :
    (∀ id n, (id, n) ∈ m → 0 < n ∧ (n : ℤ) = contribSum files id) ∧
      (∀ id, contribSum files id ≤ 0 → ∀ n, (id, n) ∉ m) := by
  unfold read_all_jsons at h
  obtain ⟨a, ha, hfin⟩ := except_bind_ok _ _ _ h
  have hnd := accumulate_nodup ha
  constructor
  · intro id n hmem
    obtain ⟨v, hv, hvpos, rfl⟩ := (finalize_mem hfin id n).mp hmem
    have hlook : lookupD 0 a id = v := lookupD_eq_of_mem 0 hnd hv
    refine ⟨by omega, ?_⟩
    rw [Int.toNat_of_nonneg hvpos.le, ← accumulate_lookup ha id, hlook]
  · intro id hns n hmem
    obtain ⟨v, hv, hvpos, _⟩ := (finalize_mem hfin id n).mp hmem
    have hlook : lookupD 0 a id = v := lookupD_eq_of_mem 0 hnd hv
    rw [accumulate_lookup ha id] at hlook
    omega

theorem read_all_jsons_positive_witness :
    (0 < (1000000000 : ℕ)) ∧
      ("b", (5 : ℕ)) ∉ ([("a", (1000000000 : ℕ))] : List (String × ℕ)) := by
  have h := read_all_jsons_positive
    [[("a", JsonValue.num 1), ("b", JsonValue.num (-1))]]
    [("a", 1000000000)] (by decide)
  exact ⟨(h.1 "a" 1000000000 (by decide)).1, h.2 "b" (by decide) 5⟩

/-- C7: a JSON string amount "1,234.5" contributes exactly the same scaled
value to the accumulated balance as the numeric literal 1234.5, and in
general string values have commas stripped before being parsed as a decimal
number (main.rs line 75). -/
theorem string_comma_aggregation :
    (∀ (acc : List (String × ℤ)) (id : String),
        processEntry acc id (JsonValue.str "1,234.5") =
          processEntry acc id (JsonValue.num 1234.5)) ∧
    (∀ s, tokensOf (JsonValue.str s) = parseDecimal (stripCommas s)) := by
  constructor
  · intro acc id
    have h1 : tokensOf (JsonValue.str "1,234.5") = some (1234.5 : ℚ) := by decide
    have h2 : tokensOf (JsonValue.num 1234.5) = some (1234.5 : ℚ) := rfl
    unfold processEntry
    rw [h1, h2]
  · intro s
    rfl

/-- C8 counterexample: the string "nan" is not a decimal number (the
decimal-literal grammar rejects it), yet the program accepts a file
containing `id2: "nan"` and returns a ledger: `parse::<f64>` yields NaN,
the sanity check `NaN > 1e9` is false, and `NaN as i128` is 0, so
aggregation succeeds instead of failing fatally. -/
theorem nan_string_accepted :
    parseDecimal (stripCommas "nan") = none ∧
      read_all_jsonsF [[("id2", JsonValue.str "nan")]] = .ok [] := by
  decide

/-- C8 (amended): every string that the full float grammar of
`str::parse::<f64>` rejects (a decimal literal, or case-insensitive
optionally signed `nan`, `inf`, `infinity`), and every JSON value that is
neither a number nor a string, makes aggregation fail fatally; in
particular `id2: "not-a-number"` does.  The accepted special forms do not
fail: "nan" is folded as 0, "-inf" is folded as `i128::MIN`, and "inf" is
fatal only through the `> 10^9` sanity check
(main.rs lines 73-79, 83-85 and 93-95). -/
theorem invalid_value_fatal_f64 :
    (∀ (files : List JFile) (file : JFile) (id s : String),
        file ∈ files → (id, JsonValue.str s) ∈ file →
        parseF64 (stripCommas s) = none →
        exceptIsOk (read_all_jsonsF files) = false) ∧
    (∀ (files : List JFile) (file : JFile) (id : String),
        file ∈ files → (id, JsonValue.other) ∈ file →
        exceptIsOk (read_all_jsonsF files) = false) ∧
    exceptIsOk (read_all_jsonsF [[("id2", JsonValue.str "not-a-number")]]) = false ∧
    read_all_jsonsF [[("x", JsonValue.str "nan")]] = .ok [] ∧
    accumulateF [[("x", JsonValue.str "-inf")]] = .ok [("x", I128MIN)] ∧
    exceptIsOk (read_all_jsonsF [[("x", JsonValue.str "inf")]]) = false := by
  refine ⟨?_, ?_, by decide, by decide, by decide, by decide⟩
  · intro files file id s hf he hp
    unfold read_all_jsonsF
    cases hacc : accumulateF files with
    | error err => rfl
    | ok a =>
      exfalso
      obtain ⟨t, ht, _⟩ := accumulateF_good hacc file hf _ he
      rw [show tokensOfF (JsonValue.str s) = parseF64 (stripCommas s) from rfl, hp] at ht
      cases ht
  · intro files file id hf he
    unfold read_all_jsonsF
    cases hacc : accumulateF files with
    | error err => rfl
    | ok a =>
      exfalso
      obtain ⟨t, ht, _⟩ := accumulateF_good hacc file hf _ he
      cases ht

theorem invalid_value_fatal_f64_witness :
    exceptIsOk (read_all_jsonsF [[("x", JsonValue.str "abc")]]) = false :=
  invalid_value_fatal_f64.1 [[("x", JsonValue.str "abc")]] [("x", JsonValue.str "abc")]
    "x" "abc" (by decide) (by decide) (by decide)

/-- C10: the sanity check never fires for a negative decimal amount, however
large its magnitude: only amounts strictly greater than 10^9 are fatal, so a
negative amount is accepted and folded into the running accumulator
(main.rs lines 83-92). -/
theorem negative_amount_accepted (acc : List (String × ℤ)) (id : String) (q : ℚ)
    (hneg : q < 0) :
    processEntry acc id (JsonValue.num q) =
      .ok (addTo acc id (truncQ (q * DENOMINATOR))) := by
  apply processEntry_ok_iff.mpr
  refine ⟨q, rfl, ?_, rfl⟩
  have : (0 : ℚ) ≤ DENOMINATOR := by norm_num [DENOMINATOR]
  linarith

theorem negative_amount_accepted_witness :
    processEntry [] "a" (JsonValue.num (-(10 ^ 18))) = .ok [("a", -(10 ^ 27))] := by
  rw [negative_amount_accepted [] "a" (-(10 ^ 18)) (by norm_num)]
  decide

/-- C2: with randomization disabled the planned mint amount of every ledger
entry equals min(balance, floor(max * 10^9)); and on the spec's example
(a.json with id1 = 50, b.json with id1 = "30.5", max = 100, dry_run, no
randomization) aggregation yields 80500000000, the plan mints 80500000000
for id1, no audit file is written, and the printed command carries the plan
(main.rs lines 137-149 and 166). -/
theorem mint_cap_no_randomize :
    (∀ (now : String) (bal : List (String × ℕ)) (mx : ℚ) (dr js : Bool)
        (memo : Option String) (pem : String) (draws : ℕ → ℚ) (id : String) (b : ℕ),
        0 ≤ mx → b < 2 ^ 64 → (id, b) ∈ bal →
        (id, min b (⌊mx * DENOMINATOR⌋).toNat) ∈
          (mint now bal ⟨mx, dr, false, memo, js, pem⟩ draws).plan) ∧
    read_all_jsons [[("id1", JsonValue.num 50)], [("id1", JsonValue.str "30.5")]] =
      .ok [("id1", 80500000000)] ∧
    (mint "d" [("id1", 80500000000)] ⟨100, true, false, none, false, "token.pem"⟩
        (fun _ => 0)).plan = [("id1", 80500000000)] ∧
    (mint "d" [("id1", 80500000000)] ⟨100, true, false, none, false, "token.pem"⟩
        (fun _ => 0)).audit = none ∧
    ConsoleLine.outCommand "token.pem" [("id1", 80500000000)] none ∈
      (mint "d" [("id1", 80500000000)] ⟨100, true, false, none, false, "token.pem"⟩
        (fun _ => 0)).console := by
  refine ⟨?_, by decide, by decide, by decide, by decide⟩
  intro now bal mx dr js memo pem draws id b hmx hb hmem
  show (id, min b (⌊mx * DENOMINATOR⌋).toNat) ∈
    mintToMint bal ⟨mx, dr, false, memo, js, pem⟩ draws
  unfold mintToMint
  rw [mintAmountsAux_no_rand]
  have hms : mintMaxScaled ⟨mx, dr, false, memo, js, pem⟩ =
      min (⌊mx * DENOMINATOR⌋).toNat U64MAXn := by
    unfold mintMaxScaled f64_as_u64 truncQ
    rw [if_pos (mul_nonneg hmx (by norm_num [DENOMINATOR]))]
  rw [hms]
  refine List.mem_map.mpr ⟨(id, b), hmem, ?_⟩
  have hmin : min b (min (⌊mx * DENOMINATOR⌋).toNat U64MAXn) =
      min b (⌊mx * DENOMINATOR⌋).toNat := by
    have hbM : b ≤ U64MAXn := by unfold U64MAXn; omega
    omega
  simp [hmin]

theorem mint_cap_no_randomize_witness :
    ("id1", min 80500000000 (⌊(100 : ℚ) * DENOMINATOR⌋).toNat) ∈
      (mint "d" [("id1", (80500000000 : ℕ))] ⟨100, false, false, none, false, "token.pem"⟩
        (fun _ => 0)).plan :=
  mint_cap_no_randomize.1 "d" [("id1", 80500000000)] 100 false false none "token.pem"
    (fun _ => 0) "id1" 80500000000 (by norm_num) (by norm_num) (by decide)

/-- C3 counterexample: the round trip is not exact.  Files `a: 2` and
`a: "0.01"` aggregate to 2010000000; a non-dry run with max = 100 mints all
of it and writes `"-2.01"` (the shortest decimal for the double
`-(2010000000 as f64 / 1e9)`); feeding that audit file back yields
`trunc((-2.01 as f64) * 1e9) = -2009999999`, so the remaining balance is 1,
not the 0 the claim demands (original minus minted). -/
theorem mint_roundtrip_exact_fails :
    read_all_jsonsF [[("a", JsonValue.num 2)], [("a", JsonValue.str "0.01")]] =
      .ok [("a", 2010000000)] ∧
    (mint "d" [("a", (2010000000 : ℕ))] ⟨100, false, false, none, false, "p"⟩
        (fun _ => 0)).plan = [("a", 2010000000)] ∧
    balOf (read_all_jsonsF ([[("a", JsonValue.num 2)], [("a", JsonValue.str "0.01")]] ++
        [auditFileF [("a", 2010000000)]])) "a" = some 1 ∧
    (1 : ℕ) ≠ 2010000000 - 2010000000 := by
  refine ⟨by decide, by decide, by decide, by decide⟩

/-- C3 (amended): for every run that mints (dry_run disabled) and every
affected identifier, re-aggregating the written audit file together with
the original input files yields a ledger balance equal to the original
aggregated balance minus exactly the scaled read-back of the audit entry —
the truncation of (parsed audit value × 10^9, each f64 step rounded) —
which equals the minted amount when the float chain round-trips exactly
(e.g. 1000000000) but can fall one short (2010000000 reads back as
2009999999).  An identifier dropped because its new balance is not
positive reads as balance 0. -/
theorem mint_roundtrip_f64
    (files : List JFile) (m : List (String × ℕ)) (now : String) (mx : ℚ)
    (rand : Bool) (memo : Option String) (js : Bool) (pem : String) (draws : ℕ → ℚ)
    (id : String) (b amt : ℕ)
    (h : read_all_jsonsF files = .ok m)
    (hb : (id, b) ∈ m)
    (hamt : (id, amt) ∈ (mint now m ⟨mx, false, rand, memo, js, pem⟩ draws).plan) :
    balOf (read_all_jsonsF
        (files ++ [auditFileF (mint now m ⟨mx, false, rand, memo, js, pem⟩ draws).plan])) id
      = some (b - readBackN amt) ∧
    readBackN 1000000000 = 1000000000 ∧
    readBackN 2010000000 = 2009999999 := by
  refine ⟨?_, by decide, by decide⟩
  have hpk : ((mint now m ⟨mx, false, rand, memo, js, pem⟩ draws).plan).map Prod.fst =
      m.map Prod.fst := mintAmountsAux_keys draws _ rand 0 m
  generalize hgen : (mint now m ⟨mx, false, rand, memo, js, pem⟩ draws).plan = plan
    at hamt hpk ⊢
  clear hgen
  unfold read_all_jsonsF at h
  obtain ⟨a, ha, hfin⟩ := except_bind_ok _ _ _ h
  have hnda : (a.map Prod.fst).Nodup := accumulateF_nodup ha
  have hndm : (m.map Prod.fst).Nodup :=
    List.Nodup.sublist (finalize_keys_sublist hfin) hnda
  have hndp : (plan.map Prod.fst).Nodup := by rw [hpk]; exact hndm
  obtain ⟨v, hv, hvpos, hbv⟩ := (finalize_mem hfin id b).mp hb
  have hal : lookupD 0 plan id = amt := lookupD_eq_of_mem 0 hndp hamt
  have hvl : lookupD 0 a id = v := lookupD_eq_of_mem 0 hnda hv
  obtain ⟨a₂, ha₂⟩ := processFileF_isOk a (auditFileF_good plan)
  have hacc₂ : accumulateF (files ++ [auditFileF plan]) = .ok a₂ := by
    show accumFromF [] (files ++ [auditFileF plan]) = .ok a₂
    rw [accumFromF_append, show accumFromF [] files = accumulateF files from rfl, ha,
      ok_bind, accumFromF_cons, ha₂, ok_bind, accumFromF_nil]
  have hnda₂ : (a₂.map Prod.fst).Nodup := processFileF_nodup ha₂ hnda
  have hlook₂ : ∀ k, lookupD 0 a₂ k =
      lookupD 0 a k + auditReadBack (lookupD 0 plan k) := by
    intro k
    rw [processFileF_lookup ha₂ k, auditFileF_contrib plan k hndp]
  have hover : ∀ p ∈ a₂, p.2 < U64MAX := by
    intro p hp
    obtain ⟨k, w⟩ := p
    show w < U64MAX
    have hw : lookupD 0 a₂ k = w := lookupD_eq_of_mem 0 hnda₂ hp
    have hwk := hlook₂ k
    rw [hw] at hwk
    have hrb := auditReadBack_nonpos (lookupD 0 plan k)
    have hold : lookupD 0 a k < U64MAX := by
      by_cases hik : k ∈ a.map Prod.fst
      · exact (finalize_isOk_iff.mp ⟨m, hfin⟩) (k, lookupD 0 a k) (lookupD_mem 0 a k hik)
      · rw [lookupD_not_mem 0 hik]
        decide
    omega
  obtain ⟨m₂, hfin₂⟩ := finalize_isOk_iff.mpr hover
  have hread₂ : read_all_jsonsF (files ++ [auditFileF plan]) = .ok m₂ := by
    unfold read_all_jsonsF
    rw [hacc₂, ok_bind, hfin₂]
  rw [hread₂]
  show some (lookupD 0 m₂ id) = some (b - readBackN amt)
  congr 1
  rw [finalize_lookup hfin₂ hnda₂ id, hlook₂ id, hvl, hal,
    auditReadBack_eq_neg_readBackN]
  omega

theorem mint_roundtrip_f64_witness :
    balOf (read_all_jsonsF ([[("a", JsonValue.num 1)]] ++
        [auditFileF (mint "d" [("a", (1000000000 : ℕ))]
          ⟨100, false, false, none, false, "p"⟩ (fun _ => 0)).plan])) "a"
      = some 0 :=
  (mint_roundtrip_f64 [[("a", JsonValue.num 1)]] [("a", 1000000000)] "d" 100 false none
    false "p" (fun _ => 0) "a" 1000000000 1000000000
    (by decide) (by decide) (by decide)).1

/-- C9 (amended): a dry-run mint writes no audit file and produces the same
mint plan and the same console output apart from the flags echo line; the
original claim that the whole console output is identical fails because
`eprintln!("Flags: {opts:?}")` prints the `dry_run` flag itself. -/
theorem mint_dry_run_frame (now : String) (bal : List (String × ℕ)) (mx : ℚ)
    (rand : Bool) (memo : Option String) (js : Bool) (pem : String) (draws : ℕ → ℚ) :
    (mint now bal ⟨mx, true, rand, memo, js, pem⟩ draws).audit = none ∧
    (mint now bal ⟨mx, true, rand, memo, js, pem⟩ draws).plan =
      (mint now bal ⟨mx, false, rand, memo, js, pem⟩ draws).plan ∧
    consoleSansFlags (mint now bal ⟨mx, true, rand, memo, js, pem⟩ draws) =
      consoleSansFlags (mint now bal ⟨mx, false, rand, memo, js, pem⟩ draws) := by
  refine ⟨rfl, rfl, ?_⟩
  have e1 : mintToMint bal ⟨mx, true, rand, memo, js, pem⟩ draws =
      mintToMint bal ⟨mx, false, rand, memo, js, pem⟩ draws := rfl
  have e2 : ∀ l, stdoutItems l ⟨mx, true, rand, memo, js, pem⟩ =
      stdoutItems l ⟨mx, false, rand, memo, js, pem⟩ := fun l => rfl
  rw [consoleSansFlags_mint, consoleSansFlags_mint, e1, e2]

/-- C9 counterexample: the full console output of a dry run differs from the
non-dry run's even with identical inputs and draws, because the echoed flags
line prints the value of `dry_run`. -/
theorem mint_dry_run_console_differs :
    ¬ ((mint "d" [("a", 1)] ⟨100, true, false, none, false, "p"⟩ (fun _ => 1)).console =
        (mint "d" [("a", 1)] ⟨100, false, false, none, false, "p"⟩ (fun _ => 1)).console) := by
  decide

end After8
